import Mathlib

/-!
Shallow embedding of the bus-network search engine of `main.py`
(classes `Schedule`, `Path`, `Stop`, `Network`), together with proofs
checking the specification's claims about it.

The Python object graph is modelled by a name-indexed network
(`List Stop`); stops are identified by their unique name, as the data
model demands.  The process-wide mutable cache (`Stop.cache`) is
threaded explicitly through the recursion as an association list, and
the unbounded recursion of `Stop.paths` is modelled with a fuel
parameter (`none` = fuel exhausted); a separate theorem shows that
fuel exceeding the number of stops always suffices.
-/

namespace Bus

/-- Embeds `Schedule.__init__` of main.py: an hour and a minute, both Python ints. -/
structure Schedule where
  hour : Int
  minute : Int
deriving DecidableEq

/-- Embeds `Schedule.__lt__` of main.py, verbatim:
`self.hour < other.hour or self.minute < other.minute`. -/
def Schedule.lt (a b : Schedule) : Prop :=
  a.hour < b.hour ∨ a.minute < b.minute

instance (a b : Schedule) : Decidable (Schedule.lt a b) := by
  unfold Schedule.lt
  infer_instance

/-- Embeds `Schedule.duration` of main.py: signed difference in minutes. -/
def Schedule.duration (a b : Schedule) : Int :=
  (a.hour - b.hour) * 60 + a.minute - b.minute

/-- The specification's order on clock values ("Ordering is lexicographic
on `(hour, minute)`", spec section 3), for comparison against the code's
`Schedule.lt`. -/
def Schedule.lexLt (a b : Schedule) : Prop :=
  a.hour < b.hour ∨ (a.hour = b.hour ∧ a.minute < b.minute)

instance (a b : Schedule) : Decidable (Schedule.lexLt a b) := by
  unfold Schedule.lexLt
  infer_instance

/-- Reflexive closure of the specification's lexicographic order:
`a` is not later than `b`. -/
def Schedule.lexLe (a b : Schedule) : Prop :=
  Schedule.lexLt a b ∨ a = b

instance (a b : Schedule) : Decidable (Schedule.lexLe a b) := by
  unfold Schedule.lexLe
  infer_instance

/-- Embeds `Path.__init__` of main.py.  `Path.stops` holds the stop
objects in Python; stops are identified by their unique name, so the
embedding records the names. -/
structure Path where
  departure : Schedule
  stops : List String
  arrival : Schedule
deriving DecidableEq

/-- Embeds `Path.duration` of main.py: `self.arrival.duration(self.departure)`. -/
def Path.duration (p : Path) : Int :=
  p.arrival.duration p.departure

/-- Embeds `Path.is_foremost` of main.py: `self.arrival < other.arrival`. -/
def isForemost (a b : Path) : Prop :=
  Schedule.lt a.arrival b.arrival

instance (a b : Path) : Decidable (isForemost a b) := by
  unfold isForemost
  infer_instance

/-- Embeds `Path.is_shorter` of main.py: compare stop counts, falling
back to `is_foremost` on a tie. -/
def isShorter (a b : Path) : Prop :=
  if a.stops.length = b.stops.length then isForemost a b
  else a.stops.length < b.stops.length

instance (a b : Path) : Decidable (isShorter a b) := by
  unfold isShorter
  infer_instance

/-- Embeds `Path.is_faster` of main.py: compare durations, falling back
to `is_foremost` on a tie. -/
def isFaster (a b : Path) : Prop :=
  if a.duration = b.duration then isForemost a b
  else a.duration < b.duration

instance (a b : Path) : Decidable (isFaster a b) := by
  unfold isFaster
  infer_instance

/-- An edge of the network: `(departure, arrival, target stop name)`,
embedding the Python tuples stored in `Stop.neighbors`. -/
abbrev Edge := Schedule × Schedule × String

/-- Embeds `Stop.__init__` of main.py: a name, weekday edges and
weekend edges (`None` defaults become empty lists). -/
structure Stop where
  name : String
  neighbors : List Edge
  neighborsWeekend : List Edge
deriving DecidableEq

/-- A network is its list of stops (class `Network` of main.py); the
Python object references between stops are resolved by name lookup. -/
abbrev Net := List Stop

/-- Looks a stop up by name, resolving the object references of the
Python graph (`Network.__getitem__` with a string key). -/
def findStop (g : Net) (n : String) : Option Stop :=
  g.find? (fun s => s.name = n)

/-- The names of the stops of a network. -/
def stopNames (g : Net) : List String :=
  g.map Stop.name

/-- The memoization cache `Stop.cache` of main.py: a dict from
`(origin name, terminus, departure)` to a list of paths, modelled as an
insertion-ordered association list.  (CPython compares the `Schedule`
component of a key by object identity, since `Schedule` defines no
`__eq__`; the embedding uses value equality, which yields at least the
hits of the identity semantics.  Every concrete run below is arranged
so that both semantics agree: a key is reused only through the very
same edge or query object.) -/
abbrev CKey := String × String × Schedule

abbrev Cache := List (CKey × List Path)

/-- Association-list lookup, embedding `cacheTuple in Stop.cache` /
`Stop.cache[cacheTuple]`. -/
def lookupC : Cache → CKey → Option (List Path)
  | [], _ => none
  | (k, v) :: rest, key => if k = key then some v else lookupC rest key

/-- Embeds `Stop.maxCache` of main.py. -/
def maxCache : Nat := 2048

/-- The `for neighborDeparture, neighborArrival, neighbor in
neighborsToSearch` loop of `Stop.paths` (main.py lines 102-110),
abstracted over the recursive call `rec`.  Threads the accumulated
path list and the cache, in Python iteration order. -/
def edgeLoop (rec : Stop → Schedule → Cache → Option (List Path × Cache))
    (g : Net) (sname : String) (departure : Schedule) (explored : List String) :
    List Edge → List Path → Cache → Option (List Path × Cache)
  | [], acc, c => some (acc, c)
  | (nd, na, nb) :: rest, acc, c =>
    if Schedule.lt nd departure then
      edgeLoop rec g sname departure explored rest acc c
    else if nb ∈ explored then
      edgeLoop rec g sname departure explored rest acc c
    else
      match findStop g nb with
      | none => edgeLoop rec g sname departure explored rest acc c
      | some nbStop =>
        match rec nbStop na c with
        | none => none
        | some (subs, c₁) =>
          edgeLoop rec g sname departure explored rest
            (acc ++ subs.map (fun p => ⟨nd, sname :: p.stops, p.arrival⟩)) c₁

/-- Embeds `Stop.paths` of main.py: base case for the terminus, cache
lookup, recursion over the admissible unexplored neighbors of the
selected day type, and the bounded cache store.  The fuel argument
bounds the recursion depth; `none` means the fuel ran out. -/
def pathsF (g : Net) : Nat → Stop → String → Schedule → Bool → List String → Cache →
    Option (List Path × Cache)
  | 0, _, _, _, _, _, _ => none
  | fuel + 1, s, terminus, departure, weekend, expl, c =>
    if s.name = terminus then some ([⟨departure, [s.name], departure⟩], c)
    else
      match lookupC c (s.name, terminus, departure) with
      | some cached => some (cached, c)
      | none =>
        match edgeLoop (fun nb na c' => pathsF g fuel nb terminus na weekend (s.name :: expl) c')
            g s.name departure (s.name :: expl)
            (if weekend then s.neighborsWeekend else s.neighbors) [] c with
        | none => none
        | some (ps, c') =>
          some (ps, if c'.length < maxCache then c' ++ [((s.name, terminus, departure), ps)] else c')

/-- Embeds the selection loop of `Stop.best_paths` (main.py lines
119-125): `Except.error ()` stands for raising `NoPathException`, and
on a non-empty input the loop scans `paths[1:]` updating the three
bests initialized to `paths[0]`. -/
def bestPaths : List Path → Except Unit (Nat × Path × Path × Path)
  | [] => Except.error ()
  | p :: rest =>
    let r := rest.foldl
      (fun (b : Path × Path × Path) q =>
        (if isForemost q b.1 then q else b.1,
         if isShorter q b.2.1 then q else b.2.1,
         if isFaster q b.2.2 then q else b.2.2))
      (p, p, p)
    Except.ok (rest.length + 1, r.1, r.2.1, r.2.2)

/-- Embeds `Stop.best_paths` of main.py: enumerate with `Stop.paths`
(fresh `_explored`), then select. -/
def stopBestPaths (g : Net) (fuel : Nat) (s : Stop) (terminus : String)
    (departure : Schedule) (weekend : Bool) (c : Cache) :
    Option (Except Unit (Nat × Path × Path × Path) × Cache) :=
  (pathsF g fuel s terminus departure weekend [] c).map (fun r => (bestPaths r.1, r.2))

/-- Embeds `Stop.filter` of main.py: a new stop with the same name whose
(positional, hence weekday) neighbor list keeps the edges of the selected
day-type list not strictly earlier than the cutoff; the weekend list of
the copy is the `None` default, i.e. empty. -/
def Stop.filter (s : Stop) (horaire : Schedule) (weekend : Bool) : Stop :=
  ⟨s.name,
   (if weekend then s.neighborsWeekend else s.neighbors).filter
     (fun nb => !decide (Schedule.lt nb.1 horaire)),
   []⟩

/-- Embeds `Network.filter` of main.py: filter every stop. -/
def netFilter (g : Net) (horaire : Schedule) (weekend : Bool) : Net :=
  g.map (fun s => s.filter horaire weekend)

/-! ### Concrete networks used to exercise the code -/

/-- A six-stop network on which a cache entry stored under one visited
context is reused under another: R reaches Q both through X and through
Y, Q reaches the terminus T only through P and then Y again.  The reused
key's schedule is the arrival of the single edge Q→P, so CPython's
identity-keyed cache takes the same hit. -/
def gSix : Net :=
  [⟨"R", [(⟨8, 0⟩, ⟨8, 10⟩, "X"), (⟨8, 0⟩, ⟨8, 15⟩, "Y")], []⟩,
   ⟨"X", [(⟨8, 10⟩, ⟨8, 20⟩, "Q")], []⟩,
   ⟨"Y", [(⟨8, 20⟩, ⟨8, 25⟩, "Q"), (⟨8, 50⟩, ⟨8, 55⟩, "T")], []⟩,
   ⟨"Q", [(⟨8, 30⟩, ⟨8, 40⟩, "P")], []⟩,
   ⟨"P", [(⟨8, 40⟩, ⟨8, 45⟩, "Y")], []⟩,
   ⟨"T", [], []⟩]

/-- The origin stop of `gSix`. -/
def stopR : Stop := ⟨"R", [(⟨8, 0⟩, ⟨8, 10⟩, "X"), (⟨8, 0⟩, ⟨8, 15⟩, "Y")], []⟩

/-- A two-stop network whose single edge runs only on weekdays. -/
def gTwo : Net :=
  [⟨"B", [(⟨8, 10⟩, ⟨8, 20⟩, "T")], []⟩, ⟨"T", [], []⟩]

/-- The origin stop of `gTwo`. -/
def stopB : Stop := ⟨"B", [(⟨8, 10⟩, ⟨8, 20⟩, "T")], []⟩

/-- The stop filtered in the concrete filter runs: one weekday edge
departing at 9:00. -/
def stopS : Stop := ⟨"S", [(⟨9, 0⟩, ⟨9, 30⟩, "X")], []⟩

/-- The single path of `gTwo` from B to T. -/
def pBT : Path := ⟨⟨8, 10⟩, ["B", "T"], ⟨8, 20⟩⟩

/-- The cache produced by enumerating `gTwo` from B at 08:00. -/
def cBT : Cache := [(("B", "T", ⟨8, 0⟩), [pBT])]

/-- A path arriving at 7:30. -/
def pEarly : Path := ⟨⟨7, 0⟩, ["A", "T"], ⟨7, 30⟩⟩

/-- A path arriving at 8:00, one whole minute-component later than 7:30
for the buggy comparison but lexicographically later. -/
def pLate : Path := ⟨⟨7, 0⟩, ["A", "T"], ⟨8, 0⟩⟩

/-! ### The claims -/

/-- C1: on `gSix`, a cold top-level enumeration from R returns the path
R,Y,Q,P,Y,T in which the stop Y appears twice: the cache entry for
(P, T, 8:40), stored while Y was still unexplored, is reused after Y
has been traversed, so not every returned Path is simple. -/
theorem c1_cache_reuse_breaks_simplicity :
    (pathsF gSix 10 stopR "T" ⟨8, 0⟩ false [] []).map (fun r => r.1.map Path.stops) =
      some [["R", "X", "Q", "P", "Y", "T"], ["R", "Y", "Q", "P", "Y", "T"], ["R", "Y", "T"]] ∧
    ¬ (["R", "Y", "Q", "P", "Y", "T"] : List String).Nodup := by
  decide

/-- C2: on `gTwo`, warming the cache with a weekday query makes the
subsequent weekend query for the same (origin, terminus, departure) key
return the weekday path B,T, whereas the same weekend query against a
cold cache returns no path at all: the cache key omits the weekend
flag, so the two flag configurations do not each receive their own
correct result. -/
theorem c2_weekend_flag_cache_leak :
    ((pathsF gTwo 10 stopB "T" ⟨8, 0⟩ false [] []).bind
        (fun r => pathsF gTwo 10 stopB "T" ⟨8, 0⟩ true [] r.2)).map
        (fun r => r.1.map Path.stops) = some [["B", "T"]] ∧
    (pathsF gTwo 10 stopB "T" ⟨8, 0⟩ true [] []).map (fun r => r.1.map Path.stops) =
      some [] := by
  decide

/-- C2 (amended): a warm-cache call does reproduce the cold result for
the very same key configuration: if a cold call for `(origin, terminus,
departure)` produced the sequence `l` and left it stored under that key,
then repeating the call against the resulting cache returns exactly
`(l, c')` again — the cache hit returns the stored sequence verbatim.
The unamended claim fails only for calls differing in the weekend flag
or the visited set, which the key omits. -/
theorem c2_warm_cache_reproduces (g : Net) (fuel fuel' : Nat) (s : Stop) (terminus : String)
    (dep : Schedule) (w : Bool) (E : List String) (c₀ : Cache) (l : List Path) (c' : Cache)
    (hne : s.name ≠ terminus)
    (_hcold : pathsF g fuel s terminus dep w E c₀ = some (l, c'))
    (hstored : lookupC c' (s.name, terminus, dep) = some l) :
    pathsF g (fuel' + 1) s terminus dep w E c' = some (l, c') := by
  rw [pathsF, if_neg hne]
  simp only [hstored]

/-- C2 amended-claim witness: on `gTwo`, after the cold weekday run, the
same call against the warm cache returns the identical sequence. -/
theorem c2_warm_cache_reproduces_witness :
    (stopB.name ≠ "T" ∧
     pathsF gTwo 10 stopB "T" ⟨8, 0⟩ false [] [] = some ([pBT], cBT) ∧
     lookupC cBT ("B", "T", ⟨8, 0⟩) = some [pBT]) ∧
    pathsF gTwo 10 stopB "T" ⟨8, 0⟩ false [] cBT = some ([pBT], cBT) :=
  ⟨⟨by decide, by decide, by decide⟩,
   c2_warm_cache_reproduces gTwo 10 9 stopB "T" ⟨8, 0⟩ false [] [] [pBT] cBT
     (by decide) (by decide) (by decide)⟩

/-- C3: the code's `Schedule.__lt__` is not the lexicographic order on
(hour, minute): 08:00 and 07:30 compare as smaller than each other, and
08:00 `<` 07:30 holds although (8,0) is lexicographically greater than
(7,30); in particular `<` is not a strict total order. -/
theorem c3_lt_not_lexicographic :
    Schedule.lt ⟨8, 0⟩ ⟨7, 30⟩ ∧ Schedule.lt ⟨7, 30⟩ ⟨8, 0⟩ ∧
    ¬ Schedule.lexLt ⟨8, 0⟩ ⟨7, 30⟩ := by
  decide

/-- C5: on the two-path input `[pEarly, pLate]`, the selection loop of
`best_paths` returns `pLate` (arrival 08:00) as foremost and as
shortest, although `pEarly` arrives strictly earlier (07:30) in the true
lexicographic order: the buggy time comparison makes the selector pick a
lexicographically later arrival. -/
theorem c5_foremost_not_lex_minimal :
    bestPaths [pEarly, pLate] = Except.ok (2, pLate, pLate, pEarly) ∧
    Schedule.lexLt pEarly.arrival pLate.arrival :=
  ⟨rfl, by decide⟩

/-- C9: filtering `stopS` with cutoff 08:30 drops its 09:00 edge even
though 09:00 is not lexicographically earlier than 08:30 (the buggy
comparison sees minute 0 < minute 30), so the copy does not contain
exactly the edges departing no earlier than the cutoff. -/
theorem c9_filter_drops_admissible_edge :
    Stop.filter stopS ⟨8, 30⟩ false = ⟨"S", [], []⟩ ∧
    Schedule.lexLe ⟨8, 30⟩ ⟨9, 0⟩ := by
  decide

/-- C10: for every stop, cutoff and flag, the filtered copy keeps its
name, stores the surviving edges of the selected day-type list in the
weekday `neighbors` field, has an empty `neighborsWeekend` field, and
consequently a weekend-filtered copy queried with weekend=True (cold
cache, terminus elsewhere) enumerates no path at all. -/
theorem c10_filter_weekend_field (s : Stop) (t : Schedule) (w : Bool) (g : Net) (fuel : Nat)
    (terminus : String) (dep : Schedule) (E : List String) :
    (s.filter t w).name = s.name ∧
    (s.filter t w).neighborsWeekend = [] ∧
    (s.filter t w).neighbors =
      (if w then s.neighborsWeekend else s.neighbors).filter
        (fun nb => !decide (Schedule.lt nb.1 t)) ∧
    (s.name ≠ terminus →
      pathsF g (fuel + 1) (s.filter t true) terminus dep true E [] =
        some ([], [((s.name, terminus, dep), [])])) := by
  refine ⟨rfl, rfl, rfl, fun h => ?_⟩
  simp [pathsF, Stop.filter, edgeLoop, lookupC, maxCache, h]

/-- C10 witness: the general theorem applied to `stopS`, cutoff 08:30,
on the network `gTwo` with terminus T. -/
theorem c10_filter_weekend_field_witness :
    stopS.name ≠ "T" ∧
    pathsF gTwo 4 (stopS.filter ⟨8, 30⟩ true) "T" ⟨8, 0⟩ true [] [] =
      some ([], [(("S", "T", ⟨8, 0⟩), [])]) :=
  ⟨by decide, (c10_filter_weekend_field stopS ⟨8, 30⟩ true gTwo 3 "T" ⟨8, 0⟩ []).2.2.2 (by decide)⟩

/-- C6: `best_paths` signals the no-path condition exactly when the
enumerated path sequence is empty, and returns normally otherwise. -/
theorem c6_noPath_iff_empty (g : Net) (fuel : Nat) (s : Stop) (terminus : String)
    (dep : Schedule) (w : Bool) (c : Cache) (l : List Path) (c' : Cache)
    (h : pathsF g fuel s terminus dep w [] c = some (l, c')) :
    stopBestPaths g fuel s terminus dep w c = some (Except.error (), c') ↔ l = [] := by
  unfold stopBestPaths
  rw [h]
  cases l with
  | nil => simp [bestPaths]
  | cons p rest => simp [bestPaths]

/-! ### Termination: fuel exceeding the stop count always suffices -/

/-- The stops of `g` whose names are not yet explored; its length is the
termination measure of the search. -/
def unvisited (g : Net) (E : List String) : List String :=
  (stopNames g).filter (fun n => !decide (n ∈ E))

theorem length_filter_imp {α : Type} (l : List α) (p q : α → Bool)
    (h : ∀ x, p x = true → q x = true) :
    (l.filter p).length ≤ (l.filter q).length := by
  induction l with
  | nil => simp
  | cons a l ih =>
    simp only [List.filter_cons]
    by_cases hp : p a = true
    · rw [if_pos hp, if_pos (h a hp)]
      simpa using ih
    · rw [if_neg hp]
      by_cases hq : q a = true
      · rw [if_pos hq]
        exact Nat.le_succ_of_le ih
      · rw [if_neg hq]
        exact ih

theorem length_filter_widen (names E : List String) (nb : String)
    (h1 : nb ∈ names) (h2 : nb ∉ E) :
    (names.filter (fun n => !decide (n ∈ nb :: E))).length <
      (names.filter (fun n => !decide (n ∈ E))).length := by
  induction names with
  | nil => cases h1
  | cons m names ih =>
    simp only [List.filter_cons]
    by_cases hm : m = nb
    · subst hm
      rw [if_neg (by simp), if_pos (by simpa using h2)]
      refine Nat.lt_succ_of_le (length_filter_imp _ _ _ ?_)
      intro x hx
      simp only [Bool.not_eq_true', decide_eq_false_iff_not, List.mem_cons, not_or] at hx ⊢
      exact hx.2
    · have h1' : nb ∈ names := by
        rcases List.mem_cons.mp h1 with h | h
        · exact absurd h.symm hm
        · exact h
      by_cases hE : m ∈ E
      · rw [if_neg (by simp [hE]), if_neg (by simp [hE])]
        exact ih h1'
      · rw [if_pos (by simp [hE, hm]), if_pos (by simp [hE])]
        exact Nat.succ_lt_succ (ih h1')

theorem edgeLoop_isSome (rec : Stop → Schedule → Cache → Option (List Path × Cache))
    (g : Net) (sname : String) (dep : Schedule) (E : List String)
    (h : ∀ nb na nbStop c', findStop g nb = some nbStop → nb ∉ E → (rec nbStop na c').isSome) :
    ∀ (edges : List Edge) (acc : List Path) (c : Cache),
      (edgeLoop rec g sname dep E edges acc c).isSome := by
  intro edges
  induction edges with
  | nil =>
    intro acc c
    simp [edgeLoop]
  | cons e rest ih =>
    intro acc c
    obtain ⟨nd, na, nb⟩ := e
    by_cases h1 : Schedule.lt nd dep
    · rw [edgeLoop, if_pos h1]
      exact ih acc c
    · by_cases h2 : nb ∈ E
      · rw [edgeLoop, if_neg h1, if_pos h2]
        exact ih acc c
      · rw [edgeLoop, if_neg h1, if_neg h2]
        rcases hf : findStop g nb with _ | nbStop
        · simp only [hf]
          exact ih acc c
        · simp only [hf]
          rcases hr : rec nbStop na c with _ | ⟨subs, c₁⟩
          · have := h nb na nbStop c hf h2
            rw [hr] at this
            cases this
          · simp only [hr]
            exact ih _ c₁

theorem pathsF_isSome (g : Net) :
    ∀ (fuel : Nat) (s : Stop) (terminus : String) (dep : Schedule) (w : Bool)
      (E : List String) (c : Cache),
      (unvisited g (s.name :: E)).length < fuel →
      (pathsF g fuel s terminus dep w E c).isSome := by
  intro fuel
  induction fuel with
  | zero =>
    intro s _ _ _ E c h
    exact absurd h (Nat.not_lt_zero _)
  | succ fuel ih =>
    intro s terminus dep w E c h
    rw [pathsF]
    by_cases ht : s.name = terminus
    · rw [if_pos ht]
      rfl
    · rw [if_neg ht]
      rcases hl : lookupC c (s.name, terminus, dep) with _ | cached
      · simp only [hl]
        have hel := edgeLoop_isSome
          (fun nb na c' => pathsF g fuel nb terminus na w (s.name :: E) c')
          g s.name dep (s.name :: E) ?hrec
          (if w then s.neighborsWeekend else s.neighbors) [] c
        case hrec =>
          intro nb na nbStop c' hf hmem
          apply ih
          have hname : nbStop.name = nb := by
            have := List.find?_some hf
            exact of_decide_eq_true this
          have hmemg : nbStop ∈ g := List.mem_of_find?_eq_some hf
          have hnames : nb ∈ stopNames g := hname ▸ List.mem_map_of_mem Stop.name hmemg
          rw [hname]
          exact lt_of_lt_of_le
            (length_filter_widen (stopNames g) (s.name :: E) nb hnames hmem)
            (Nat.lt_succ_iff.mp h)
        rcases he : edgeLoop
            (fun nb na c' => pathsF g fuel nb terminus na w (s.name :: E) c')
            g s.name dep (s.name :: E)
            (if w then s.neighborsWeekend else s.neighbors) [] c with _ | ⟨ps, c'⟩
        · rw [he] at hel
          cases hel
        · simp only [he]
          rfl
      · simp only [hl]
        rfl

/-- C7: on every finite network, in particular cyclic ones, the path
enumeration terminates: fuel exceeding the number of stops (a recursion
depth bounded by the stop count plus the initial frame) never runs out,
so `Stop.paths` returns a finite path sequence. -/
theorem c7_terminates (g : Net) (fuel : Nat) (s : Stop) (terminus : String)
    (dep : Schedule) (w : Bool) (E : List String) (c : Cache)
    (h : (stopNames g).length < fuel) :
    (pathsF g fuel s terminus dep w E c).isSome = true := by
  apply pathsF_isSome
  exact lt_of_le_of_lt (List.length_filter_le _ _) h

/-- A three-stop ring with one edge in each direction, the termination
example of the spec. -/
def gRing : Net :=
  [⟨"A", [(⟨8, 0⟩, ⟨8, 5⟩, "B"), (⟨8, 0⟩, ⟨8, 5⟩, "C")], []⟩,
   ⟨"B", [(⟨8, 10⟩, ⟨8, 15⟩, "C"), (⟨8, 10⟩, ⟨8, 15⟩, "A")], []⟩,
   ⟨"C", [(⟨8, 20⟩, ⟨8, 25⟩, "A"), (⟨8, 20⟩, ⟨8, 25⟩, "B")], []⟩]

/-- The origin stop of `gRing`. -/
def ringA : Stop := ⟨"A", [(⟨8, 0⟩, ⟨8, 5⟩, "B"), (⟨8, 0⟩, ⟨8, 5⟩, "C")], []⟩

/-- C7 witness: on the three-stop ring, fuel 4 (stop count plus one)
suffices for the enumeration from A to C. -/
theorem c7_terminates_witness :
    (stopNames gRing).length < 4 ∧
    (pathsF gRing 4 ringA "C" ⟨8, 0⟩ false [] []).isSome = true :=
  ⟨by decide, c7_terminates gRing 4 ringA "C" ⟨8, 0⟩ false [] [] (by decide)⟩

/-! ### Admissibility: every edge is taken no earlier than its frontier -/

/-- All edges leaving the stop of the given name, of both day types. -/
def edgesOf (g : Net) (n : String) : List Edge :=
  match findStop g n with
  | none => []
  | some s => s.neighbors ++ s.neighborsWeekend

/-- `Adm g t dep stops arr`: the stop sequence `stops` is realized by a
chain of edges of `g` in which every edge departs no earlier (in the
true lexicographic order) than the frontier at the point it is taken:
the first edge no earlier than the query time `t`, and each later edge
no earlier than the arrival of the previous one.  `dep` and `arr` are
the departure and arrival fields of the Path. -/
def Adm (g : Net) : Schedule → Schedule → List String → Schedule → Prop
  | _, _, [], _ => False
  | t, dep, [_], arr => dep = t ∧ arr = t
  | t, dep, s₀ :: s₁ :: rest, arr =>
      ∃ nd na, (nd, na, s₁) ∈ edgesOf g s₀ ∧ dep = nd ∧ Schedule.lexLe t nd ∧
        ∃ d', Adm g na d' (s₁ :: rest) arr

/-- A path as returned by the enumerator for origin `n` and frontier
`t`: it starts at `n` and is realized by an admissible edge chain. -/
def goodPath (g : Net) (n : String) (t : Schedule) (p : Path) : Prop :=
  p.stops.head? = some n ∧ Adm g t p.departure p.stops p.arrival

/-- Every entry of the cache holds admissible paths for its key, the
invariant the enumeration maintains. -/
def CacheAdm (g : Net) (c : Cache) : Prop :=
  ∀ k l, lookupC c k = some l → ∀ p ∈ l, goodPath g k.1 k.2.2 p

theorem not_lt_lexLe (a b : Schedule) (h : ¬ Schedule.lt a b) : Schedule.lexLe b a := by
  unfold Schedule.lt at h
  push_neg at h
  obtain ⟨h1, h2⟩ := h
  rcases lt_or_eq_of_le h1 with hlt | heq
  · exact Or.inl (Or.inl hlt)
  · rcases lt_or_eq_of_le h2 with hlt2 | heq2
    · exact Or.inl (Or.inr ⟨heq, hlt2⟩)
    · right
      cases a
      cases b
      simp_all

theorem adm_lexLe_dep (g : Net) (t dep : Schedule) (stops : List String) (arr : Schedule)
    (h : Adm g t dep stops arr) : Schedule.lexLe t dep := by
  match stops with
  | [] => cases h
  | [s] =>
    obtain ⟨h1, _⟩ := h
    exact Or.inr h1.symm
  | s₀ :: s₁ :: rest =>
    obtain ⟨nd, na, _, hdep, hlex, _⟩ := h
    rw [hdep]
    exact hlex

theorem lookupC_append (c : Cache) (k₀ : CKey) (v₀ : List Path) (key : CKey) (l : List Path)
    (h : lookupC (c ++ [(k₀, v₀)]) key = some l) :
    lookupC c key = some l ∨ (k₀ = key ∧ v₀ = l) := by
  induction c with
  | nil =>
    rw [List.nil_append, lookupC] at h
    by_cases hk : k₀ = key
    · rw [if_pos hk] at h
      exact Or.inr ⟨hk, Option.some.inj h⟩
    · rw [if_neg hk, lookupC] at h
      cases h
  | cons kv c ih =>
    obtain ⟨k, v⟩ := kv
    rw [List.cons_append, lookupC] at h
    rw [lookupC]
    by_cases hk : k = key
    · rw [if_pos hk] at h ⊢
      exact Or.inl h
    · rw [if_neg hk] at h ⊢
      exact ih h

theorem edgeLoop_adm (g : Net) (rec : Stop → Schedule → Cache → Option (List Path × Cache))
    (sname : String) (dep : Schedule) (E : List String)
    (hrec : ∀ nb na nbStop c₀ subs c₁, findStop g nb = some nbStop →
      rec nbStop na c₀ = some (subs, c₁) → CacheAdm g c₀ →
      (∀ p ∈ subs, goodPath g nb na p) ∧ CacheAdm g c₁) :
    ∀ (edges : List Edge) (acc : List Path) (c : Cache) (ps : List Path) (c' : Cache),
      (∀ e ∈ edges, e ∈ edgesOf g sname) →
      (∀ p ∈ acc, goodPath g sname dep p) →
      CacheAdm g c →
      edgeLoop rec g sname dep E edges acc c = some (ps, c') →
      (∀ p ∈ ps, goodPath g sname dep p) ∧ CacheAdm g c' := by
  intro edges
  induction edges with
  | nil =>
    intro acc c ps c' _ hacc hc h
    rw [edgeLoop] at h
    cases h
    exact ⟨hacc, hc⟩
  | cons e rest ih =>
    intro acc c ps c' hedges hacc hc h
    obtain ⟨nd, na, nb⟩ := e
    have hrest : ∀ e ∈ rest, e ∈ edgesOf g sname :=
      fun e he => hedges e (List.mem_cons_of_mem _ he)
    by_cases h1 : Schedule.lt nd dep
    · rw [edgeLoop, if_pos h1] at h
      exact ih acc c ps c' hrest hacc hc h
    · by_cases h2 : nb ∈ E
      · rw [edgeLoop, if_neg h1, if_pos h2] at h
        exact ih acc c ps c' hrest hacc hc h
      · rw [edgeLoop, if_neg h1, if_neg h2] at h
        rcases hf : findStop g nb with _ | nbStop
        · simp only [hf] at h
          exact ih acc c ps c' hrest hacc hc h
        · simp only [hf] at h
          rcases hr : rec nbStop na c with _ | ⟨subs, c₁⟩
          · simp only [hr] at h
            cases h
          · simp only [hr] at h
            obtain ⟨hsubs, hc₁⟩ := hrec nb na nbStop c subs c₁ hf hr hc
            refine ih _ c₁ ps c' hrest ?_ hc₁ h
            intro p hp
            rcases List.mem_append.mp hp with hp | hp
            · exact hacc p hp
            · obtain ⟨q, hq, rfl⟩ := List.mem_map.mp hp
              obtain ⟨hhead, hadm⟩ := hsubs q hq
              rcases hstops : q.stops with _ | ⟨q₀, qtail⟩
              · rw [hstops] at hhead
                cases hhead
              · rw [hstops] at hhead
                have hq₀ : q₀ = nb := by
                  simpa using hhead
                constructor
                · rfl
                · show Adm g dep nd (sname :: q₀ :: qtail) q.arrival
                  rw [hq₀]
                  refine ⟨nd, na, hedges _ (List.mem_cons_self _ _), rfl,
                    not_lt_lexLe nd dep h1, q.departure, ?_⟩
                  rw [hstops, hq₀] at hadm
                  exact hadm

theorem pathsF_adm (g : Net) :
    ∀ (fuel : Nat) (s : Stop) (terminus : String) (dep : Schedule) (w : Bool)
      (E : List String) (c : Cache) (l : List Path) (c' : Cache),
      findStop g s.name = some s →
      CacheAdm g c →
      pathsF g fuel s terminus dep w E c = some (l, c') →
      (∀ p ∈ l, goodPath g s.name dep p) ∧ CacheAdm g c' := by
  intro fuel
  induction fuel with
  | zero =>
    intro s terminus dep w E c l c' _ _ h
    rw [pathsF] at h
    cases h
  | succ fuel ih =>
    intro s terminus dep w E c l c' hs hc h
    rw [pathsF] at h
    by_cases ht : s.name = terminus
    · rw [if_pos ht] at h
      cases h
      refine ⟨?_, hc⟩
      intro p hp
      rcases List.mem_singleton.mp hp with rfl
      exact ⟨rfl, rfl, rfl⟩
    · rw [if_neg ht] at h
      rcases hl : lookupC c (s.name, terminus, dep) with _ | cached
      · rw [hl] at h
        rcases he : edgeLoop
            (fun nb na c' => pathsF g fuel nb terminus na w (s.name :: E) c')
            g s.name dep (s.name :: E)
            (if w then s.neighborsWeekend else s.neighbors) [] c with _ | ⟨ps, cL⟩
        · rw [he] at h
          cases h
        · rw [he] at h
          have hloop := edgeLoop_adm g
            (fun nb na c' => pathsF g fuel nb terminus na w (s.name :: E) c')
            s.name dep (s.name :: E) ?hrec
            (if w then s.neighborsWeekend else s.neighbors) [] c ps cL
            ?hedges (fun p hp => absurd hp (List.not_mem_nil p)) hc he
          case hrec =>
            intro nb na nbStop c₀ subs c₁ hf hr hc₀
            have hname : nbStop.name = nb := by
              have h' := List.find?_some hf
              exact of_decide_eq_true h'
            have := ih nbStop terminus na w (s.name :: E) c₀ subs c₁
              (by rw [hname]; exact hf) hc₀ hr
            rw [hname] at this
            exact this
          case hedges =>
            intro e he'
            unfold edgesOf
            rw [hs]
            rcases hw : w with _ | _
            · rw [hw] at he'
              simp only [if_neg Bool.false_ne_true] at he'
              exact List.mem_append_left _ he'
            · rw [hw] at he'
              simp only [if_pos rfl] at he'
              exact List.mem_append_right _ he'
          obtain ⟨hps, hcL⟩ := hloop
          cases h
          refine ⟨hps, ?_⟩
          by_cases hlt : cL.length < maxCache
          · rw [if_pos hlt]
            intro k l' hk p hp
            rcases lookupC_append cL _ _ k l' hk with hk' | ⟨hkey, hval⟩
            · exact hcL k l' hk' p hp
            · rw [← hkey] at *
              rw [← hval] at hp
              exact hps p hp
          · rw [if_neg hlt]
            exact hcL
      · rw [hl] at h
        cases h
        refine ⟨?_, hc⟩
        intro p hp
        exact hc (s.name, terminus, dep) _ hl p hp

/-- C4: every Path returned by `Stop.paths` (under a cache whose entries
were themselves produced by the enumeration, `CacheAdm`) starts at the
origin and is realized by a chain of edges each departing no earlier, in
the true lexicographic order, than the search frontier at the point it
was taken; in particular the Path's departure field is no earlier than
the query time. -/
theorem c4_admissibility (g : Net) (fuel : Nat) (s : Stop) (terminus : String)
    (dep : Schedule) (w : Bool) (E : List String) (c : Cache) (l : List Path) (c' : Cache)
    (hs : findStop g s.name = some s) (hc : CacheAdm g c)
    (h : pathsF g fuel s terminus dep w E c = some (l, c')) :
    ∀ p ∈ l, p.stops.head? = some s.name ∧
      Adm g dep p.departure p.stops p.arrival ∧ Schedule.lexLe dep p.departure := by
  intro p hp
  obtain ⟨hhead, hadm⟩ := (pathsF_adm g fuel s terminus dep w E c l c' hs hc h).1 p hp
  exact ⟨hhead, hadm, adm_lexLe_dep g dep p.departure p.stops p.arrival hadm⟩

/-- C4 witness: the admissibility theorem applied to the concrete
weekday run on `gTwo` from the empty cache. -/
theorem c4_admissibility_witness :
    findStop gTwo stopB.name = some stopB ∧
    pathsF gTwo 10 stopB "T" ⟨8, 0⟩ false [] [] = some ([pBT], cBT) ∧
    (pBT.stops.head? = some stopB.name ∧
      Adm gTwo ⟨8, 0⟩ pBT.departure pBT.stops pBT.arrival ∧
      Schedule.lexLe ⟨8, 0⟩ pBT.departure) :=
  ⟨by decide, by decide,
    c4_admissibility gTwo 10 stopB "T" ⟨8, 0⟩ false [] [] [pBT] cBT (by decide)
      (fun k l hkl => nomatch hkl) (by decide) pBT (by decide)⟩

/-! ### The cache never exceeds its bound -/

theorem edgeLoop_cacheLe (rec : Stop → Schedule → Cache → Option (List Path × Cache))
    (g : Net) (sname : String) (dep : Schedule) (E : List String)
    (hrec : ∀ nb na c₀ subs c₁, rec nb na c₀ = some (subs, c₁) →
      c₀.length ≤ maxCache → c₁.length ≤ maxCache) :
    ∀ (edges : List Edge) (acc : List Path) (c : Cache) (ps : List Path) (c' : Cache),
      edgeLoop rec g sname dep E edges acc c = some (ps, c') →
      c.length ≤ maxCache → c'.length ≤ maxCache := by
  intro edges
  induction edges with
  | nil =>
    intro acc c ps c' h hc
    rw [edgeLoop] at h
    cases h
    exact hc
  | cons e rest ih =>
    intro acc c ps c' h hc
    obtain ⟨nd, na, nb⟩ := e
    by_cases h1 : Schedule.lt nd dep
    · rw [edgeLoop, if_pos h1] at h
      exact ih acc c ps c' h hc
    · by_cases h2 : nb ∈ E
      · rw [edgeLoop, if_neg h1, if_pos h2] at h
        exact ih acc c ps c' h hc
      · rw [edgeLoop, if_neg h1, if_neg h2] at h
        rcases hf : findStop g nb with _ | nbStop
        · rw [hf] at h
          exact ih acc c ps c' h hc
        · simp only [hf] at h
          rcases hr : rec nbStop na c with _ | ⟨subs, c₁⟩
          · simp only [hr] at h
            cases h
          · simp only [hr] at h
            exact ih _ c₁ ps c' h (hrec nbStop na c subs c₁ hr hc)

theorem pathsF_cacheLe (g : Net) :
    ∀ (fuel : Nat) (s : Stop) (terminus : String) (dep : Schedule) (w : Bool)
      (E : List String) (c : Cache) (l : List Path) (c' : Cache),
      pathsF g fuel s terminus dep w E c = some (l, c') →
      c.length ≤ maxCache → c'.length ≤ maxCache := by
  intro fuel
  induction fuel with
  | zero =>
    intro s terminus dep w E c l c' h
    rw [pathsF] at h
    cases h
  | succ fuel ih =>
    intro s terminus dep w E c l c' h hc
    rw [pathsF] at h
    by_cases ht : s.name = terminus
    · rw [if_pos ht] at h
      cases h
      exact hc
    · rw [if_neg ht] at h
      rcases hl : lookupC c (s.name, terminus, dep) with _ | cached
      · rw [hl] at h
        rcases he : edgeLoop
            (fun nb na c' => pathsF g fuel nb terminus na w (s.name :: E) c')
            g s.name dep (s.name :: E)
            (if w then s.neighborsWeekend else s.neighbors) [] c with _ | ⟨ps, cL⟩
        · rw [he] at h
          cases h
        · rw [he] at h
          have hcL : cL.length ≤ maxCache :=
            edgeLoop_cacheLe _ g s.name dep (s.name :: E)
              (fun nb na c₀ subs c₁ hr hb => ih nb terminus na w (s.name :: E) c₀ subs c₁ hr hb)
              _ [] c ps cL he hc
          cases h
          by_cases hlt : cL.length < maxCache
          · rw [if_pos hlt]
            simpa using Nat.succ_le_of_lt hlt
          · rw [if_neg hlt]
            exact hcL
      · rw [hl] at h
        cases h
        exact hc

theorem edgeLoop_cacheFull (rec : Stop → Schedule → Cache → Option (List Path × Cache))
    (g : Net) (sname : String) (dep : Schedule) (E : List String)
    (hrec : ∀ nb na c₀ subs c₁, rec nb na c₀ = some (subs, c₁) →
      maxCache ≤ c₀.length → c₁ = c₀) :
    ∀ (edges : List Edge) (acc : List Path) (c : Cache) (ps : List Path) (c' : Cache),
      edgeLoop rec g sname dep E edges acc c = some (ps, c') →
      maxCache ≤ c.length → c' = c := by
  intro edges
  induction edges with
  | nil =>
    intro acc c ps c' h hc
    rw [edgeLoop] at h
    cases h
    rfl
  | cons e rest ih =>
    intro acc c ps c' h hc
    obtain ⟨nd, na, nb⟩ := e
    by_cases h1 : Schedule.lt nd dep
    · rw [edgeLoop, if_pos h1] at h
      exact ih acc c ps c' h hc
    · by_cases h2 : nb ∈ E
      · rw [edgeLoop, if_neg h1, if_pos h2] at h
        exact ih acc c ps c' h hc
      · rw [edgeLoop, if_neg h1, if_neg h2] at h
        rcases hf : findStop g nb with _ | nbStop
        · rw [hf] at h
          exact ih acc c ps c' h hc
        · simp only [hf] at h
          rcases hr : rec nbStop na c with _ | ⟨subs, c₁⟩
          · simp only [hr] at h
            cases h
          · simp only [hr] at h
            have hceq : c₁ = c := hrec nbStop na c subs c₁ hr hc
            subst hceq
            exact ih _ c₁ ps c' h hc

theorem pathsF_cacheFull (g : Net) :
    ∀ (fuel : Nat) (s : Stop) (terminus : String) (dep : Schedule) (w : Bool)
      (E : List String) (c : Cache) (l : List Path) (c' : Cache),
      pathsF g fuel s terminus dep w E c = some (l, c') →
      maxCache ≤ c.length → c' = c := by
  intro fuel
  induction fuel with
  | zero =>
    intro s terminus dep w E c l c' h
    rw [pathsF] at h
    cases h
  | succ fuel ih =>
    intro s terminus dep w E c l c' h hc
    rw [pathsF] at h
    by_cases ht : s.name = terminus
    · rw [if_pos ht] at h
      cases h
      rfl
    · rw [if_neg ht] at h
      rcases hl : lookupC c (s.name, terminus, dep) with _ | cached
      · rw [hl] at h
        rcases he : edgeLoop
            (fun nb na c' => pathsF g fuel nb terminus na w (s.name :: E) c')
            g s.name dep (s.name :: E)
            (if w then s.neighborsWeekend else s.neighbors) [] c with _ | ⟨ps, cL⟩
        · rw [he] at h
          cases h
        · rw [he] at h
          have hcL : cL = c :=
            edgeLoop_cacheFull _ g s.name dep (s.name :: E)
              (fun nb na c₀ subs c₁ hr hb => ih nb terminus na w (s.name :: E) c₀ subs c₁ hr hb)
              _ [] c ps cL he hc
          subst hcL
          cases h
          rw [if_neg (Nat.not_lt.mpr hc)]
      · rw [hl] at h
        cases h
        rfl

/-- C8: every call to `Stop.paths` keeps the cache within `maxCache`
entries, and once the cache holds exactly `maxCache` entries no further
entry is inserted (the cache is returned unchanged, no eviction). -/
theorem c8_cache_bounded (g : Net) (fuel : Nat) (s : Stop) (terminus : String)
    (dep : Schedule) (w : Bool) (E : List String) (c : Cache) (l : List Path) (c' : Cache)
    (h : pathsF g fuel s terminus dep w E c = some (l, c')) :
    (c.length ≤ maxCache → c'.length ≤ maxCache) ∧
    (c.length = maxCache → c' = c) :=
  ⟨fun hle => pathsF_cacheLe g fuel s terminus dep w E c l c' h hle,
   fun heq => pathsF_cacheFull g fuel s terminus dep w E c l c' h (le_of_eq heq.symm)⟩

/-- C8 witness: the bound theorem applied to the concrete weekday run
on `gTwo` starting from the empty cache. -/
theorem c8_cache_bounded_witness :
    pathsF gTwo 10 stopB "T" ⟨8, 0⟩ false [] [] = some ([pBT], cBT) ∧
    ((([] : Cache).length ≤ maxCache → cBT.length ≤ maxCache) ∧
     (([] : Cache).length = maxCache → cBT = [])) :=
  ⟨by decide,
   c8_cache_bounded gTwo 10 stopB "T" ⟨8, 0⟩ false [] [] [pBT] cBT (by decide)⟩

/-- C6 witness: on `gTwo` with departure 08:30 every edge has already
departed, the enumeration is empty, and the selector signals no-path. -/
theorem c6_noPath_iff_empty_witness :
    pathsF gTwo 10 stopB "T" ⟨8, 30⟩ false [] [] =
      some ([], [(("B", "T", ⟨8, 30⟩), [])]) ∧
    (stopBestPaths gTwo 10 stopB "T" ⟨8, 30⟩ false [] =
        some (Except.error (), [(("B", "T", ⟨8, 30⟩), [])]) ↔ ([] : List Path) = []) :=
  ⟨by decide, c6_noPath_iff_empty _ _ _ _ _ _ _ _ _ (by decide)⟩

end Bus
